import Mathlib

/-!
# Verification of the `events` library (event-emitter.h, pubsub.h, utils.h)

Shallow embedding of the C++ sources of the `events` repository:

* `EventEmitter` (src/include/event-emitter.h): an ordered vector of listener
  entries `{id, event key, once flag, callback}`; `on`/`once` append a fresh
  entry with a monotonically generated id; `emit` scans the vector in order,
  invoking every entry whose event key matches and erasing once-flagged
  entries in place; `removeListener` binary-searches the id-sorted vector.
* `ConnectionHandle` (same header): `{emitter pointer, weak liveness ref, id}`
  with `isValid`, `release`, `disconnect`.
* `Publisher`/`Subscriber` (src/include/pubsub.h): a publisher owns an
  ordered vector of subscriber pointers; each subscriber owns a single
  back-pointer `m_publisher`; `notify_all` invokes a method on each
  subscriber with no try/catch.
* `apply_relaxed`/`invoke_relaxed` (src/include/utils.h): arity-tolerant
  invocation dropping trailing arguments.

Event keys (C++ pointers to member functions, compared by identity) are
modelled as `Nat`; connection ids (C++ `int`, generated from 1 upward) as
`Nat`; callbacks are modelled by the data the claims need: the declared
parameter count (for relaxed invocation) and a flag saying whether the
callback body throws (for exception propagation).
-/

/-- One listener entry of `EventEmitter::m_listeners`
(`details::MemberFunctionEventListener`): the connection id, the event key
(`m_signal`, compared by identity in `matches`), the `once_flag`, and a flag
recording whether the stored callback throws when invoked. -/
structure Listener where
  id : Nat
  event : Nat
  once_flag : Bool
  throws : Bool
deriving Repr, DecidableEq

/-- The state of an `EventEmitter`: the id generator `m_id_generator`
(starts at 0, pre-incremented on each registration) and the listener vector
`m_listeners` (kept sorted by increasing id). -/
structure EmitterState where
  m_id_generator : Nat
  m_listeners : List Listener
deriving Repr, DecidableEq

/-- A freshly constructed `EventEmitter`. -/
def EmitterState.init : EmitterState := ⟨0, []⟩

/-- Model of `EventEmitter::on`: pre-increments the id generator, appends a new
listener (once flag false) at the end of the vector, returns the id. -/
def EmitterState.on (s : EmitterState) (ev : Nat) (thr : Bool) :
    EmitterState × Nat :=
  let id := s.m_id_generator + 1
  (⟨id, s.m_listeners ++ [⟨id, ev, false, thr⟩]⟩, id)

/-- Model of `EventEmitter::once`: same as `on` but the listener's `once_flag` is
set. -/
def EmitterState.once (s : EmitterState) (ev : Nat) (thr : Bool) :
    EmitterState × Nat :=
  let id := s.m_id_generator + 1
  (⟨id, s.m_listeners ++ [⟨id, ev, true, thr⟩]⟩, id)

/-- The loop body of `EventEmitter::emit`: walk the listener vector from the
current iterator position; when an entry `matches(event)` invoke it and
record its id, then erase it in place if its `once_flag` is set (the
iterator returned by `erase` points at the next entry) or advance;
otherwise advance.  Returns the vector after the scan and the ordered list
of invoked connection ids. -/
def emitScan (ev : Nat) : List Listener → List Listener × List Nat
  | [] => ([], [])
  | l :: rest =>
    if l.event = ev then
      let r := emitScan ev rest
      if l.once_flag then (r.1, l.id :: r.2)
      else (l :: r.1, l.id :: r.2)
    else
      let r := emitScan ev rest
      (l :: r.1, r.2)

/-- Model of `EventEmitter::emit` on the whole state. -/
def EmitterState.emit (s : EmitterState) (ev : Nat) : EmitterState × List Nat :=
  let r := emitScan ev s.m_listeners
  (⟨s.m_id_generator, r.1⟩, r.2)

/-- Model of `EventEmitter::removeListener`: `std::lower_bound` over the id-sorted
vector with comparator `ptr->id < cid` (modelled by its specification on a
partitioned range: the first position whose id is not `< cid`), then erase
the entry there if its id is exactly `cid`, returning whether a removal
occurred. -/
def EmitterState.removeListener (s : EmitterState) (cid : Nat) :
    EmitterState × Bool :=
  let pre := s.m_listeners.takeWhile (fun l => l.id < cid)
  match s.m_listeners.dropWhile (fun l => l.id < cid) with
  | l :: post =>
    if l.id = cid then (⟨s.m_id_generator, pre ++ post⟩, true)
    else (s, false)
  | [] => (s, false)

/-- One operation of a client on an `EventEmitter`. -/
inductive Op where
  | on (ev : Nat) (thr : Bool)
  | once (ev : Nat) (thr : Bool)
  | emit (ev : Nat)
  | removeListener (cid : Nat)
deriving Repr, DecidableEq

/-- Apply one operation (ignoring the returned id / boolean / log). -/
def applyOp (s : EmitterState) : Op → EmitterState
  | .on ev thr => (s.on ev thr).1
  | .once ev thr => (s.once ev thr).1
  | .emit ev => (s.emit ev).1
  | .removeListener cid => (s.removeListener cid).1

/-- Run a sequence of operations from a given state. -/
def runOpsFrom (s : EmitterState) : List Op → EmitterState
  | [] => s
  | op :: ops => runOpsFrom (applyOp s op) ops

/-- Run a sequence of operations on a fresh `EventEmitter`. -/
def runOps (ops : List Op) : EmitterState := runOpsFrom EmitterState.init ops

/-- The concatenated invocation log of all `emit` operations in a run:
every connection id invoked, in invocation order. -/
def traceLog (s : EmitterState) : List Op → List Nat
  | [] => []
  | .emit ev :: ops => (s.emit ev).2 ++ traceLog (s.emit ev).1 ops
  | op :: ops => traceLog (applyOp s op) ops

/-- The ids of the listeners currently registered. -/
def EmitterState.ids (s : EmitterState) : List Nat := s.m_listeners.map Listener.id

/-! ## Characterisation of the emit scan -/

/-- The invocation log of one emit pass: exactly the ids of the currently
registered listeners whose event key matches, in vector order. -/
theorem emitScan_log (ev : Nat) (ls : List Listener) :
    (emitScan ev ls).2 = (ls.filter (fun l => l.event == ev)).map Listener.id := by
  induction ls with
  | nil => rfl
  | cons l rest ih =>
    by_cases h : l.event = ev
    · by_cases ho : l.once_flag <;>
        simp [emitScan, h, ho, List.filter_cons, ih]
    · simp [emitScan, h, List.filter_cons, ih]

/-- The listener vector after one emit pass: the matching once-flagged
entries have been erased, everything else is untouched and in order. -/
theorem emitScan_state (ev : Nat) (ls : List Listener) :
    (emitScan ev ls).1 = ls.filter (fun l => !(l.event == ev && l.once_flag)) := by
  induction ls with
  | nil => rfl
  | cons l rest ih =>
    by_cases h : l.event = ev
    · by_cases ho : l.once_flag <;>
        simp [emitScan, h, ho, List.filter_cons, ih]
    · simp [emitScan, h, List.filter_cons, ih]

/-! ## The registry invariant -/

/-- Invariant of a reachable `EventEmitter` state: the listener vector is
sorted by strictly increasing connection id, every id is positive, and no
id exceeds the id generator (hence fresh ids are never reused). -/
def RegInv (s : EmitterState) : Prop :=
  s.m_listeners.Pairwise (fun a b => a.id < b.id) ∧
  ∀ l ∈ s.m_listeners, 1 ≤ l.id ∧ l.id ≤ s.m_id_generator

theorem RegInv_init : RegInv EmitterState.init := by
  constructor <;> simp [EmitterState.init]

theorem RegInv_on (s : EmitterState) (ev : Nat) (thr : Bool) (h : RegInv s) :
    RegInv (s.on ev thr).1 := by
  obtain ⟨hsort, hbound⟩ := h
  constructor
  · rw [EmitterState.on, List.pairwise_append]
    refine ⟨hsort, by simp, ?_⟩
    intro a ha b hb
    simp only [List.mem_singleton] at hb
    subst hb
    exact Nat.lt_succ_of_le (hbound a ha).2
  · intro l hl
    simp only [EmitterState.on, List.mem_append, List.mem_singleton] at hl
    rcases hl with hl | hl
    · exact ⟨(hbound l hl).1, Nat.le_succ_of_le (hbound l hl).2⟩
    · subst hl; simp [EmitterState.on]

theorem RegInv_once (s : EmitterState) (ev : Nat) (thr : Bool) (h : RegInv s) :
    RegInv (s.once ev thr).1 := by
  obtain ⟨hsort, hbound⟩ := h
  constructor
  · rw [EmitterState.once, List.pairwise_append]
    refine ⟨hsort, by simp, ?_⟩
    intro a ha b hb
    simp only [List.mem_singleton] at hb
    subst hb
    exact Nat.lt_succ_of_le (hbound a ha).2
  · intro l hl
    simp only [EmitterState.once, List.mem_append, List.mem_singleton] at hl
    rcases hl with hl | hl
    · exact ⟨(hbound l hl).1, Nat.le_succ_of_le (hbound l hl).2⟩
    · subst hl; simp [EmitterState.once]

theorem RegInv_emit (s : EmitterState) (ev : Nat) (h : RegInv s) :
    RegInv (s.emit ev).1 := by
  obtain ⟨hsort, hbound⟩ := h
  constructor
  · show ((s.emit ev).1.m_listeners).Pairwise _
    simp only [EmitterState.emit, emitScan_state]
    exact hsort.filter _
  · intro l hl
    simp only [EmitterState.emit, emitScan_state, List.mem_filter] at hl
    exact hbound l hl.1

theorem removeListener_gen (s : EmitterState) (cid : Nat) :
    (s.removeListener cid).1.m_id_generator = s.m_id_generator := by
  unfold EmitterState.removeListener
  cases hd : s.m_listeners.dropWhile (fun l => l.id < cid) with
  | nil => rfl
  | cons l post =>
    by_cases h : l.id = cid <;> simp [h]

theorem removeListener_sublist (s : EmitterState) (cid : Nat) :
    List.Sublist (s.removeListener cid).1.m_listeners s.m_listeners := by
  unfold EmitterState.removeListener
  cases hd : s.m_listeners.dropWhile (fun l => l.id < cid) with
  | nil => simp
  | cons l post =>
    by_cases h : l.id = cid
    · simp only [h, if_true]
      conv_rhs =>
        rw [← List.takeWhile_append_dropWhile (fun l => l.id < cid) s.m_listeners, hd]
      exact (List.sublist_cons_self l post).append_left _
    · simp [h]

theorem RegInv_removeListener (s : EmitterState) (cid : Nat) (h : RegInv s) :
    RegInv (s.removeListener cid).1 := by
  obtain ⟨hsort, hbound⟩ := h
  constructor
  · exact hsort.sublist (removeListener_sublist s cid)
  · intro l hl
    have := hbound l ((removeListener_sublist s cid).mem hl)
    rw [removeListener_gen]
    exact this

theorem RegInv_applyOp (s : EmitterState) (op : Op) (h : RegInv s) : RegInv (applyOp s op) :=
  match op with
  | Op.on ev thr => RegInv_on s ev thr h
  | Op.once ev thr => RegInv_once s ev thr h
  | Op.emit ev => RegInv_emit s ev h
  | Op.removeListener cid => RegInv_removeListener s cid h

theorem RegInv_runOpsFrom (ops : List Op) : ∀ (s : EmitterState), RegInv s → RegInv (runOpsFrom s ops) := by
  induction ops with
  | nil => intro s h; exact h
  | cons op rest ih => intro s h; exact ih _ (RegInv_applyOp s op h)

/-- Every reachable registry state satisfies the invariant. -/
theorem RegInv_runOps (ops : List Op) : RegInv (runOps ops) :=
  RegInv_runOpsFrom ops EmitterState.init RegInv_init

/-! ## Characterisation of removeListener -/

theorem dropWhile_head_false {α : Type} (p : α → Bool) :
    ∀ (ls : List α) (l : α) (post : List α),
      ls.dropWhile p = l :: post → p l = false := by
  intro ls
  induction ls with
  | nil => intro l post h; simp [List.dropWhile] at h
  | cons a as ih =>
    intro l post h
    rw [List.dropWhile_cons] at h
    by_cases hp : p a
    · rw [if_pos hp] at h
      exact ih l post h
    · rw [if_neg hp] at h
      cases h
      simpa using hp

theorem all_lt_of_dropWhile_nil (ls : List Listener) (cid : Nat)
    (hd : ls.dropWhile (fun l => l.id < cid) = []) : ∀ x ∈ ls, x.id < cid := by
  intro x hx
  rw [← List.takeWhile_append_dropWhile (fun l => decide (l.id < cid)) ls, hd,
    List.append_nil] at hx
  simpa using List.mem_takeWhile_imp hx

theorem all_ne_of_dropWhile_head_ne (ls : List Listener) (cid : Nat)
    (hs : ls.Pairwise (fun a b => a.id < b.id)) (l : Listener) (post : List Listener)
    (hd : ls.dropWhile (fun l => l.id < cid) = l :: post) (hne : l.id ≠ cid) :
    ∀ x ∈ ls, x.id ≠ cid := by
  have hnotlt : ¬ (l.id < cid) := by
    simpa using dropWhile_head_false (fun l => decide (l.id < cid)) ls l post hd
  have hpw : (l :: post).Pairwise (fun a b => a.id < b.id) := by
    rw [← hd]
    exact hs.sublist (List.dropWhile_sublist _)
  intro x hx
  rw [← List.takeWhile_append_dropWhile (fun l => decide (l.id < cid)) ls, hd] at hx
  rcases List.mem_append.mp hx with htk | hdp
  · have := List.mem_takeWhile_imp htk
    simp only [decide_eq_true_eq] at this
    omega
  · rcases List.mem_cons.mp hdp with rfl | hpost
    · exact hne
    · have h1 : l.id < x.id := (List.pairwise_cons.mp hpw).1 x hpost
      omega

/-- Model of `removeListener` returns true exactly when an entry with the given id is
present (on an id-sorted vector, as guaranteed by the invariant). -/
theorem removeListener_found (s : EmitterState) (cid : Nat)
    (hs : s.m_listeners.Pairwise (fun a b => a.id < b.id)) :
    (s.removeListener cid).2 = s.m_listeners.any (fun l => l.id == cid) := by
  unfold EmitterState.removeListener
  cases hd : s.m_listeners.dropWhile (fun l => l.id < cid) with
  | nil =>
    simp only []
    symm
    rw [List.any_eq_false]
    intro x hx
    have := all_lt_of_dropWhile_nil s.m_listeners cid hd x hx
    simp only [beq_iff_eq]
    omega
  | cons l post =>
    by_cases h : l.id = cid
    · simp only [h, if_true]
      symm
      rw [List.any_eq_true]
      refine ⟨l, ?_, by simp [h]⟩
      have hmem : l ∈ s.m_listeners.dropWhile (fun l => l.id < cid) := by
        rw [hd]; exact List.mem_cons_self l post
      exact (List.dropWhile_sublist _).mem hmem
    · simp only [h, if_false]
      symm
      rw [List.any_eq_false]
      intro x hx
      have := all_ne_of_dropWhile_head_ne s.m_listeners cid hs l post hd h x hx
      simpa using this

/-- Model of `removeListener` erases exactly the entry carrying the given id (on an
id-sorted vector); when no entry matches, the vector is unchanged. -/
theorem removeListener_listeners (s : EmitterState) (cid : Nat)
    (hs : s.m_listeners.Pairwise (fun a b => a.id < b.id)) :
    (s.removeListener cid).1.m_listeners
      = s.m_listeners.filter (fun l => !(l.id == cid)) := by
  unfold EmitterState.removeListener
  cases hd : s.m_listeners.dropWhile (fun l => l.id < cid) with
  | nil =>
    simp only []
    symm
    apply List.filter_eq_self.mpr
    intro x hx
    have := all_lt_of_dropWhile_nil s.m_listeners cid hd x hx
    simp only [beq_iff_eq, Bool.not_eq_true']
    simpa using Nat.ne_of_lt this
  | cons l post =>
    by_cases h : l.id = cid
    · simp only [h, if_true]
      have hsplit := List.takeWhile_append_dropWhile (fun l => decide (l.id < cid)) s.m_listeners
      have hpw : (l :: post).Pairwise (fun a b => a.id < b.id) := by
        rw [← hd]
        exact hs.sublist (List.dropWhile_sublist _)
      conv_rhs => rw [← hsplit, hd]
      rw [List.filter_append, List.filter_cons]
      have htk : (s.m_listeners.takeWhile (fun l => l.id < cid)).filter
          (fun l => !(l.id == cid)) = s.m_listeners.takeWhile (fun l => l.id < cid) := by
        apply List.filter_eq_self.mpr
        intro x hx
        have := List.mem_takeWhile_imp hx
        simp only [decide_eq_true_eq] at this
        simp only [beq_iff_eq, Bool.not_eq_true']
        simpa using Nat.ne_of_lt this
      have hpost : post.filter (fun l => !(l.id == cid)) = post := by
        apply List.filter_eq_self.mpr
        intro x hx
        have h1 : l.id < x.id := (List.pairwise_cons.mp hpw).1 x hx
        simp only [beq_iff_eq, Bool.not_eq_true']
        simp only [h] at h1
        simpa using (Nat.ne_of_lt h1).symm
      simp [htk, hpost, h]
    · simp only [h, if_false]
      symm
      apply List.filter_eq_self.mpr
      intro x hx
      have := all_ne_of_dropWhile_head_ne s.m_listeners cid hs l post hd h x hx
      simpa using this

theorem EmitterState.eq_of_fields {a b : EmitterState}
    (h1 : a.m_id_generator = b.m_id_generator) (h2 : a.m_listeners = b.m_listeners) :
    a = b := by
  cases a; cases b; cases h1; cases h2; rfl

/-- Two currently registered listeners with the same id are the same entry
(ids are unique within a sorted registry). -/
theorem mem_id_unique (ls : List Listener) (hs : ls.Pairwise (fun a b => a.id < b.id))
    (a b : Listener) (ha : a ∈ ls) (hb : b ∈ ls) (hab : a.id = b.id) : a = b := by
  have hnodup : (ls.map Listener.id).Nodup := by
    rw [List.Nodup, List.pairwise_map]
    exact hs.imp (fun h => Nat.ne_of_lt h)
  exact List.inj_on_of_nodup_map hnodup ha hb hab

/-- C1: after any sequence of registrations and removals, emitting an event
invokes exactly the currently registered listeners whose event key matches,
in registration order (the log is exactly the matching ids in vector order,
the ids are strictly increasing — registration order — so each matching
listener is invoked exactly once, and every invoked id belongs to a
currently registered listener for that exact event key). -/
theorem claim_C1 (ops : List Op) (ev : Nat) :
    ((runOps ops).emit ev).2
        = (((runOps ops).m_listeners.filter (fun l => l.event == ev)).map Listener.id)
    ∧ ((runOps ops).emit ev).2.Pairwise (fun a b => a < b)
    ∧ (∀ l ∈ (runOps ops).m_listeners, l.event = ev →
        ((runOps ops).emit ev).2.count l.id = 1)
    ∧ (∀ i ∈ ((runOps ops).emit ev).2,
        ∃ l ∈ (runOps ops).m_listeners, l.id = i ∧ l.event = ev) := by
  obtain ⟨hsort, hbound⟩ := RegInv_runOps ops
  have hlog : ((runOps ops).emit ev).2
      = (((runOps ops).m_listeners.filter (fun l => l.event == ev)).map Listener.id) := by
    simp [EmitterState.emit, emitScan_log]
  have hpw : ((runOps ops).emit ev).2.Pairwise (fun a b => a < b) := by
    rw [hlog, List.pairwise_map]
    exact hsort.filter _
  refine ⟨hlog, hpw, ?_, ?_⟩
  · intro l hl hev
    have hmem : l.id ∈ ((runOps ops).emit ev).2 := by
      rw [hlog]
      exact List.mem_map_of_mem Listener.id (List.mem_filter.mpr ⟨hl, by simp [hev]⟩)
    have hnodup : ((runOps ops).emit ev).2.Nodup := hpw.imp Nat.ne_of_lt
    exact List.count_eq_one_of_mem hnodup hmem
  · intro i hi
    rw [hlog] at hi
    obtain ⟨l, hl, rfl⟩ := List.mem_map.mp hi
    have hf := List.mem_filter.mp hl
    exact ⟨l, hf.1, rfl, by simpa using hf.2⟩

/-- C8: on any reachable registry (sorted by strictly increasing positive
ids, bounded by the generator), `removeListener(id)` returns true exactly
when an entry with that id exists, erases exactly that entry, leaves the id
generator alone, and is a no-op on the whole state when the id is absent. -/
theorem claim_C8 (ops : List Op) (cid : Nat) :
    ((runOps ops).removeListener cid).2
        = (runOps ops).m_listeners.any (fun l => l.id == cid)
    ∧ ((runOps ops).removeListener cid).1.m_listeners
        = (runOps ops).m_listeners.filter (fun l => !(l.id == cid))
    ∧ ((runOps ops).removeListener cid).1.m_id_generator
        = (runOps ops).m_id_generator
    ∧ ((∀ l ∈ (runOps ops).m_listeners, l.id ≠ cid) →
        ((runOps ops).removeListener cid).1 = runOps ops)
    ∧ (runOps ops).m_listeners.Pairwise (fun a b => a.id < b.id)
    ∧ (∀ l ∈ (runOps ops).m_listeners, 1 ≤ l.id ∧ l.id ≤ (runOps ops).m_id_generator) := by
  obtain ⟨hsort, hbound⟩ := RegInv_runOps ops
  refine ⟨removeListener_found _ cid hsort, removeListener_listeners _ cid hsort,
    removeListener_gen _ cid, ?_, hsort, hbound⟩
  intro hnone
  have hfe : (runOps ops).m_listeners.filter (fun l => !(l.id == cid))
      = (runOps ops).m_listeners :=
    List.filter_eq_self.mpr (fun x hx => by simpa using hnone x hx)
  exact EmitterState.eq_of_fields (removeListener_gen _ cid)
    ((removeListener_listeners _ cid hsort).trans hfe)

/-- Each currently registered matching listener is invoked exactly once per
emit pass (the scan neither skips nor double-visits entries around an
in-place erase). -/
theorem emit_count_one (s : EmitterState) (ev : Nat)
    (hsort : s.m_listeners.Pairwise (fun a b => a.id < b.id))
    (l : Listener) (hl : l ∈ s.m_listeners) (hev : l.event = ev) :
    (s.emit ev).2.count l.id = 1 := by
  have hlog : (s.emit ev).2
      = ((s.m_listeners.filter (fun l => l.event == ev)).map Listener.id) := by
    simp [EmitterState.emit, emitScan_log]
  have hpw : (s.emit ev).2.Pairwise (fun a b => a < b) := by
    rw [hlog, List.pairwise_map]
    exact hsort.filter _
  have hmem : l.id ∈ (s.emit ev).2 := by
    rw [hlog]
    exact List.mem_map_of_mem Listener.id (List.mem_filter.mpr ⟨hl, by simp [hev]⟩)
  exact List.count_eq_one_of_mem (hpw.imp Nat.ne_of_lt) hmem

/-- A connection id that is not registered and not beyond the id generator
never shows up in any later invocation log (ids are never reused). -/
theorem notMem_traceLog : ∀ (ops : List Op) (s : EmitterState) (i : Nat),
    (∀ l ∈ s.m_listeners, l.id ≠ i) → i ≤ s.m_id_generator →
    i ∉ traceLog s ops := by
  intro ops
  induction ops with
  | nil => intro s i _ _; simp [traceLog]
  | cons op rest ih =>
    intro s i h1 h2
    rcases op with ⟨ev, thr⟩ | ⟨ev, thr⟩ | ⟨ev⟩ | ⟨cid⟩
    · show i ∉ traceLog s (Op.on ev thr :: rest)
      rw [show traceLog s (Op.on ev thr :: rest)
          = traceLog (applyOp s (Op.on ev thr)) rest from rfl]
      apply ih
      · intro l hl
        simp only [applyOp, EmitterState.on, List.mem_append, List.mem_singleton] at hl
        rcases hl with hl | hl
        · exact h1 l hl
        · subst hl; simp; omega
      · simp only [applyOp, EmitterState.on]
        omega
    · show i ∉ traceLog s (Op.once ev thr :: rest)
      rw [show traceLog s (Op.once ev thr :: rest)
          = traceLog (applyOp s (Op.once ev thr)) rest from rfl]
      apply ih
      · intro l hl
        simp only [applyOp, EmitterState.once, List.mem_append, List.mem_singleton] at hl
        rcases hl with hl | hl
        · exact h1 l hl
        · subst hl; simp; omega
      · simp only [applyOp, EmitterState.once]
        omega
    · show i ∉ traceLog s (Op.emit ev :: rest)
      rw [show traceLog s (Op.emit ev :: rest)
          = (s.emit ev).2 ++ traceLog (s.emit ev).1 rest from rfl]
      rw [List.mem_append]
      push_neg
      constructor
      · intro hmem
        rw [show (s.emit ev).2 = (emitScan ev s.m_listeners).2 from rfl,
          emitScan_log] at hmem
        obtain ⟨l, hl, hid⟩ := List.mem_map.mp hmem
        exact h1 l (List.mem_filter.mp hl).1 hid
      · apply ih
        · intro l hl
          rw [show (s.emit ev).1.m_listeners = (emitScan ev s.m_listeners).1 from rfl,
            emitScan_state] at hl
          exact h1 l (List.mem_filter.mp hl).1
        · exact h2
    · show i ∉ traceLog s (Op.removeListener cid :: rest)
      rw [show traceLog s (Op.removeListener cid :: rest)
          = traceLog (applyOp s (Op.removeListener cid)) rest from rfl]
      apply ih
      · intro l hl
        exact h1 l ((removeListener_sublist s cid).mem hl)
      · rw [show (applyOp s (Op.removeListener cid)).m_id_generator
            = s.m_id_generator from removeListener_gen s cid]
        exact h2

/-- C2: a listener registered with `once` for the emitted event is invoked
exactly once by that emit, is absent from the registry afterwards, is
invoked exactly once across that emit and any sequence of subsequent
operations (no id reuse), and its in-place removal neither skips nor
double-visits any other matching listener of the same pass. -/
theorem claim_C2 (ops : List Op) (ev : Nat) (l : Listener) (rest : List Op)
    (hmem : l ∈ (runOps ops).m_listeners) (honce : l.once_flag = true)
    (hev : l.event = ev) :
    ((runOps ops).emit ev).2.count l.id = 1
    ∧ l.id ∉ ((runOps ops).emit ev).1.ids
    ∧ (traceLog (runOps ops) (Op.emit ev :: rest)).count l.id = 1
    ∧ (∀ l2 ∈ (runOps ops).m_listeners, l2.event = ev →
        ((runOps ops).emit ev).2.count l2.id = 1) := by
  obtain ⟨hsort, hbound⟩ := RegInv_runOps ops
  have habsent : ∀ l2 ∈ ((runOps ops).emit ev).1.m_listeners, l2.id ≠ l.id := by
    intro l2 hl2 heq
    rw [show ((runOps ops).emit ev).1.m_listeners
        = (emitScan ev (runOps ops).m_listeners).1 from rfl, emitScan_state] at hl2
    obtain ⟨hl2mem, hl2p⟩ := List.mem_filter.mp hl2
    have : l2 = l := mem_id_unique _ hsort l2 l hl2mem hmem heq
    subst this
    simp [hev, honce] at hl2p
  refine ⟨emit_count_one _ ev hsort l hmem hev, ?_, ?_, ?_⟩
  · intro hid
    obtain ⟨l2, hl2, hl2id⟩ := List.mem_map.mp hid
    exact habsent l2 hl2 hl2id
  · rw [show traceLog (runOps ops) (Op.emit ev :: rest)
        = ((runOps ops).emit ev).2 ++ traceLog ((runOps ops).emit ev).1 rest from rfl]
    rw [List.count_append]
    have hzero : (traceLog ((runOps ops).emit ev).1 rest).count l.id = 0 := by
      rw [List.count_eq_zero]
      apply notMem_traceLog rest _ l.id habsent
      rw [show (((runOps ops).emit ev).1).m_id_generator
          = (runOps ops).m_id_generator from rfl]
      exact (hbound l hmem).2
    rw [hzero, emit_count_one _ ev hsort l hmem hev]
  · intro l2 hl2 hev2
    exact emit_count_one _ ev hsort l2 hl2 hev2

theorem claim_C2_witness :
    (⟨1, 5, true, false⟩ : Listener) ∈ (runOps [Op.once 5 false]).m_listeners
    ∧ ((runOps [Op.once 5 false]).emit 5).2.count 1 = 1
    ∧ 1 ∉ ((runOps [Op.once 5 false]).emit 5).1.ids
    ∧ (traceLog (runOps [Op.once 5 false]) [Op.emit 5, Op.emit 5]).count 1 = 1 := by
  have h := claim_C2 [Op.once 5 false] 5 ⟨1, 5, true, false⟩ [Op.emit 5]
    (by decide) rfl rfl
  exact ⟨by decide, h.1, h.2.1, h.2.2.1⟩

/-! ## utils.h: relaxed (arity-tolerant) invocation -/

/-- Model of `apply_relaxed_impl` from src/include/utils.h, modelled for a callable
declaring exactly `k` parameters and an argument tuple `t`: with an empty
index sequence the callable is called with no arguments (well-formed only
when `k = 0`); otherwise, if the callable is invocable with the first `m`
tuple elements — which for a callback declaring exactly `k` parameters is
the case exactly when `m = k` — it is called with those elements; else the
last index is dropped and the search recurses.  Returns the argument list
the callable is invoked with (`none` when no call is well-formed). -/
def apply_relaxed_impl (k : Nat) (t : List Nat) : Nat → Option (List Nat)
  | 0 => if k = 0 then some [] else none
  | m + 1 => if k = m + 1 then some (t.take (m + 1)) else apply_relaxed_impl k t m

/-- Model of `apply_relaxed`: starts the search from the full index sequence
`0 .. tuple_size - 1`. -/
def apply_relaxed (k : Nat) (t : List Nat) : Option (List Nat) :=
  apply_relaxed_impl k t t.length

/-- Model of `invoke_relaxed`: packs its arguments and forwards to
`apply_relaxed`. -/
def invoke_relaxed (k : Nat) (args : List Nat) : Option (List Nat) :=
  apply_relaxed k args

theorem apply_relaxed_impl_eq (k : Nat) (t : List Nat) :
    ∀ m, k ≤ m → apply_relaxed_impl k t m = some (t.take k) := by
  intro m
  induction m with
  | zero =>
    intro h
    have hk : k = 0 := Nat.le_zero.mp h
    simp [apply_relaxed_impl, hk]
  | succ m ih =>
    intro h
    by_cases hk : k = m + 1
    · simp [apply_relaxed_impl, hk]
    · have hle : k ≤ m := by omega
      simp [apply_relaxed_impl, hk, ih hle]

/-- C6: a callback declaring `k` parameters, invoked through the relaxed
dispatch with `n ≥ k` supplied arguments, receives exactly the prefix of
the first `k` arguments; the trailing arguments are dropped. -/
theorem claim_C6 (k : Nat) (t : List Nat) (hk : k ≤ t.length) :
    invoke_relaxed k t = some (t.take k) := by
  unfold invoke_relaxed apply_relaxed
  exact apply_relaxed_impl_eq k t t.length hk

theorem claim_C6_witness :
    (1 : Nat) ≤ ([10, 20] : List Nat).length
    ∧ invoke_relaxed 0 [10, 20] = some []
    ∧ invoke_relaxed 1 [10, 20] = some [10]
    ∧ invoke_relaxed 2 [10, 20] = some [10, 20] :=
  ⟨by decide, claim_C6 0 [10, 20] (by decide), claim_C6 1 [10, 20] (by decide),
    claim_C6 2 [10, 20] (by decide)⟩

/-! ## Exception behaviour of emit (event-emitter.h) -/

/-- The body of a stored callback: `Except.error` models the callback
throwing during invocation. -/
def callbackRun (l : Listener) : Except Unit Unit :=
  if l.throws then Except.error () else Except.ok ()

/-- Model of `MemberFunctionEventListener::invoke`: the callback runs inside
`try { invoke_relaxed(m_callback, ...); } catch (...) {}` — the catch-all
handler swallows any exception, so `invoke` always returns normally. -/
def Listener.invoke (l : Listener) : Except Unit Unit :=
  match callbackRun l with
  | Except.ok u => Except.ok u
  | Except.error _ => Except.ok ()

theorem Listener.invoke_ok (l : Listener) : l.invoke = Except.ok () := by
  unfold Listener.invoke callbackRun
  by_cases h : l.throws <;> simp [h]

/-- The emit scan with exception propagation made explicit: every
invocation outcome is sequenced, so an exception escaping `invoke` would
abort the scan and surface to the caller of `emit`. -/
def emitScanE (ev : Nat) : List Listener → Except Unit (List Listener × List Nat)
  | [] => Except.ok ([], [])
  | l :: rest =>
    if l.event = ev then
      match l.invoke with
      | Except.error e => Except.error e
      | Except.ok _ =>
        match emitScanE ev rest with
        | Except.error e => Except.error e
        | Except.ok r =>
          if l.once_flag then Except.ok (r.1, l.id :: r.2)
          else Except.ok (l :: r.1, l.id :: r.2)
    else
      match emitScanE ev rest with
      | Except.error e => Except.error e
      | Except.ok r => Except.ok (l :: r.1, r.2)

/-- Model of `EventEmitter::emit` with exception propagation made explicit. -/
def EmitterState.emitE (s : EmitterState) (ev : Nat) :
    Except Unit (EmitterState × List Nat) :=
  match emitScanE ev s.m_listeners with
  | Except.error e => Except.error e
  | Except.ok r => Except.ok (⟨s.m_id_generator, r.1⟩, r.2)

/-- C7: whatever the callbacks' throwing behaviour, `emit` returns
normally (no exception reaches its caller) and produces the same scan as
the pure model — in particular the invocation log still lists every
matching listener, so dispatch continues past a throwing callback. -/
theorem claim_C7 (s : EmitterState) (ev : Nat) :
    s.emitE ev = Except.ok (s.emit ev)
    ∧ (s.emit ev).2
        = ((s.m_listeners.filter (fun l => l.event == ev)).map Listener.id) := by
  constructor
  · have hscan : ∀ ls : List Listener, emitScanE ev ls = Except.ok (emitScan ev ls) := by
      intro ls
      induction ls with
      | nil => rfl
      | cons l rest ih =>
        by_cases h : l.event = ev
        · by_cases ho : l.once_flag <;>
            simp [emitScanE, emitScan, h, ho, ih, Listener.invoke_ok]
        · simp [emitScanE, emitScan, h, ih]
    simp [EmitterState.emitE, EmitterState.emit, hscan]
  · simp [EmitterState.emit, emitScan_log]

/-! ## pubsub.h: notify_all and the publisher/subscriber registry -/

/-- One subscriber as seen by `notify_all`: its identity and whether the
invoked method throws. -/
structure Subscriber where
  addr : Nat
  throws : Bool
deriving Repr, DecidableEq

/-- Model of `notify_all` from src/include/pubsub.h: a plain loop invoking
`(listener->*method)(args...)` on each subscriber in order, with no
try/catch — an exception propagates out of the loop immediately.  Returns
the subscribers actually invoked (in order) and the outcome. -/
def notify_all : List Subscriber → List Nat × Except Unit Unit
  | [] => ([], Except.ok ())
  | s :: rest =>
    if s.throws then ([s.addr], Except.error ())
    else
      let r := notify_all rest
      (s.addr :: r.1, r.2)

/-- C10: `Publisher::notify` (which delegates to `notify_all`) performs no
exception suppression: when a subscriber's method throws, the exception
propagates to the caller of notify and the subscribers after it in
iteration order are not invoked in that call. -/
theorem claim_C10 (pre post : List Subscriber) (s : Subscriber)
    (hpre : ∀ x ∈ pre, x.throws = false) (hs : s.throws = true) :
    notify_all (pre ++ s :: post) = (pre.map Subscriber.addr ++ [s.addr], Except.error ()) := by
  induction pre with
  | nil => simp [notify_all, hs]
  | cons a pre ih =>
    have ha := hpre a (List.mem_cons_self a pre)
    simp [notify_all, ha, ih (fun x hx => hpre x (List.mem_cons_of_mem a hx))]

theorem claim_C10_witness :
    (∀ x ∈ [Subscriber.mk 1 false], x.throws = false)
    ∧ (Subscriber.mk 2 true).throws = true
    ∧ notify_all [⟨1, false⟩, ⟨2, true⟩, ⟨3, false⟩] = ([1, 2], Except.error ()) :=
  ⟨by decide, rfl, claim_C10 [⟨1, false⟩] [⟨3, false⟩] ⟨2, true⟩ (by decide) rfl⟩

/-! ## ConnectionHandle (event-emitter.h)

The world is `Option EmitterState`: `some` while the `EventEmitter` is
alive — it then holds the only strong reference to its `m_lifecontrol`
cell — and `none` once it has been destroyed.  A handle records whether its
raw `m_emitter` pointer is non-null (pointing at that emitter), whether its
weak `m_live` pointer is engaged to that emitter's `m_lifecontrol` cell,
and the connection id. -/

structure ConnectionHandle where
  m_emitter : Bool
  m_live : Bool
  m_connection_id : Nat
deriving Repr, DecidableEq

/-- Model of `m_live.lock() != nullptr`: the weak pointer resolves iff it is engaged
and the emitter still holds its strong reference (i.e. is alive). -/
def lockLive (w : Option EmitterState) (h : ConnectionHandle) : Bool :=
  h.m_live && w.isSome

/-- Model of `ConnectionHandle::isValid`: non-null emitter pointer AND the weak
liveness pointer resolves. -/
def ConnectionHandle.isValid (h : ConnectionHandle) (w : Option EmitterState) : Bool :=
  h.m_emitter && lockLive w h

/-- Model of `ConnectionHandle::release`: clears the emitter pointer, resets the
weak pointer, exchanges the id with 0 and returns it. -/
def ConnectionHandle.release (h : ConnectionHandle) : ConnectionHandle × Nat :=
  (⟨false, false, 0⟩, h.m_connection_id)

/-- Model of `ConnectionHandle::disconnect`: `if (isValid()) {
m_emitter->removeListener(m_connection_id); release(); }` — nothing happens
when the handle is not valid.  Returns the world after the call, the handle
after the call, and whether `removeListener` was called. -/
def ConnectionHandle.disconnect (h : ConnectionHandle) (w : Option EmitterState) :
    Option EmitterState × ConnectionHandle × Bool :=
  if h.isValid w then
    match w with
    | some es => (some (es.removeListener h.m_connection_id).1, (h.release).1, true)
    | none => (w, h, false)
  else (w, h, false)

/-- C5: once the owning `EventEmitter` is destroyed (world `none`), every
handle reports `isValid() = false`, and `disconnect()` on it is a no-op:
it does not call `removeListener` and does not touch the dead emitter. -/
theorem claim_C5 (h : ConnectionHandle) :
    h.isValid none = false ∧ h.disconnect none = (none, h, false) := by
  constructor
  · simp [ConnectionHandle.isValid, lockLive]
  · simp [ConnectionHandle.disconnect, ConnectionHandle.isValid, lockLive]

/-- C3 counterexample: a stale handle (emitter pointer and weak reference
set, connection id 5, emitter destroyed) is left completely unchanged by
`disconnect()` — in particular `connectionId()` is still 5, not 0, so the
handle does not transition to the Empty state the claim requires. -/
theorem claim_C3_counterexample :
    ((ConnectionHandle.mk true true 5).disconnect none).2.1.m_connection_id = 5
    ∧ ((ConnectionHandle.mk true true 5).disconnect none).2.1 ≠ ⟨false, false, 0⟩ := by
  decide

/-- C3 (amended): `disconnect()` on a valid handle first calls the
emitter's `removeListener(connectionId())` and then transitions the handle
to Empty (pointer cleared, weak reference reset, id zeroed); on an invalid
handle — including a stale one — it is a no-op that calls no remove and
leaves the handle's fields unchanged (it does NOT become Empty); calling
`disconnect()` again after a successful disconnect is a no-op. -/
theorem claim_C3 (h : ConnectionHandle) (w : Option EmitterState) :
    (∀ es, w = some es → h.isValid w = true →
      h.disconnect w
        = (some (es.removeListener h.m_connection_id).1, ⟨false, false, 0⟩, true))
    ∧ (h.isValid w = false → h.disconnect w = (w, h, false))
    ∧ (∀ w2 : Option EmitterState,
        (ConnectionHandle.mk false false 0).disconnect w2 = (w2, ⟨false, false, 0⟩, false)) := by
  refine ⟨?_, ?_, ?_⟩
  · intro es hw hv
    subst hw
    simp [ConnectionHandle.disconnect, hv, ConnectionHandle.release]
  · intro hv
    simp [ConnectionHandle.disconnect, hv]
  · intro w2
    simp [ConnectionHandle.disconnect, ConnectionHandle.isValid]

/-! ## Reentrant emit (live iteration)

In the C++ `emit` loop the end iterator is recomputed on every step
(`it != m_listeners.end()`), so entries appended to the vector by a
callback running *during* the pass extend the iteration range.  To settle
the snapshot-semantics claim we model callbacks that register listeners on
the same emitter while the pass runs: a listener carries the list of
`(event key, once flag)` registrations its callback performs (the
listeners registered that way have callbacks performing no registrations
themselves).  The iterator is modelled as a vector index, which matches
the C++ execution whenever `push_back` does not reallocate (on
reallocation the C++ iterator is invalidated and the behaviour undefined;
the model follows the defined executions). -/

/-- A listener whose callback may register further listeners during its
invocation. -/
structure RListener where
  id : Nat
  event : Nat
  once_flag : Bool
  adds : List (Nat × Bool)
deriving Repr, DecidableEq

/-- An emitter holding such listeners. -/
structure REmitter where
  m_id_generator : Nat
  m_listeners : List RListener
deriving Repr, DecidableEq

/-- The registrations a callback performs while it runs: each is
`EventEmitter::on`/`once` — pre-increment the generator, append at the
end. -/
def regAdds (s : REmitter) : List (Nat × Bool) → REmitter
  | [] => s
  | (ev, oflag) :: rest =>
    regAdds ⟨s.m_id_generator + 1,
      s.m_listeners ++ [⟨s.m_id_generator + 1, ev, oflag, []⟩]⟩ rest

/-- The `emit` loop with the iterator as an index: the end test is
re-evaluated each step, a matching entry is invoked (running its
callback's registrations), then erased in place when once-flagged (the
index stays put) or stepped over.  `fuel` bounds the number of steps so
the recursion is structural; the returned flag tells whether the loop ran
to completion (`it == end`) rather than running out of fuel. -/
def emitLoop (ev : Nat) : Nat → REmitter → Nat → List Nat → REmitter × List Nat × Bool
  | 0, s, _, log => (s, log, false)
  | fuel + 1, s, i, log =>
    match s.m_listeners[i]? with
    | none => (s, log, true)
    | some l =>
      if l.event = ev then
        let s2 := regAdds s l.adds
        if l.once_flag then
          emitLoop ev fuel ⟨s2.m_id_generator, s2.m_listeners.eraseIdx i⟩ i (log ++ [l.id])
        else
          emitLoop ev fuel s2 (i + 1) (log ++ [l.id])
      else
        emitLoop ev fuel s (i + 1) log

/-- Model of `EventEmitter::emit` in the reentrant model. -/
def REmitter.emit (s : REmitter) (ev : Nat) (fuel : Nat) : REmitter × List Nat × Bool :=
  emitLoop ev fuel s 0 []

/-- C9 counterexample: one listener (id 1) for event 7 whose callback
registers a second listener for event 7 during the emit pass.  The pass
runs to completion (the flag is true, so fuel is not the limit) and its
invocation log is [1, 2]: the listener registered during the pass IS
invoked within the same pass, contradicting the claim. -/
theorem claim_C9_counterexample :
    (REmitter.emit ⟨1, [⟨1, 7, false, [(7, false)]⟩]⟩ 7 10).2
      = ([1, 2], true) := by
  decide

theorem getElem?_eq_head?_drop {α : Type} (l : List α) (i : Nat) :
    l[i]? = (l.drop i).head? := by
  induction l generalizing i with
  | nil => simp
  | cons a l ih =>
    cases i with
    | zero => simp
    | succ n =>
      rw [List.getElem?_cons_succ, List.drop_succ_cons]
      exact ih n

/-- Once the remaining range consists of matching, non-once listeners whose
callbacks register nothing, the loop invokes each of them in order and
stops at the (recomputed) end. -/
theorem emitLoop_tail (ev : Nat) :
    ∀ (rest : List RListener) (s : REmitter) (i : Nat) (log : List Nat) (fuel : Nat),
      s.m_listeners.drop i = rest →
      (∀ l ∈ rest, l.event = ev ∧ l.once_flag = false ∧ l.adds = []) →
      rest.length < fuel →
      emitLoop ev fuel s i log = (s, log ++ rest.map RListener.id, true) := by
  intro rest
  induction rest with
  | nil =>
    intro s i log fuel hdrop _ hfuel
    cases fuel with
    | zero => omega
    | succ f =>
      have hget : s.m_listeners[i]? = none := by
        rw [getElem?_eq_head?_drop, hdrop]; rfl
      simp [emitLoop, hget]
  | cons r rest ih =>
    intro s i log fuel hdrop hall hfuel
    cases fuel with
    | zero => simp at hfuel
    | succ f =>
      have hget : s.m_listeners[i]? = some r := by
        rw [getElem?_eq_head?_drop, hdrop]; rfl
      obtain ⟨hev, honce, hadds⟩ := hall r (List.mem_cons_self r rest)
      have hstep : s.m_listeners.drop (i + 1) = rest := by
        rw [← List.tail_drop, hdrop]; rfl
      have hrec := ih s (i + 1) (log ++ [r.id]) f hstep
        (fun l hl => hall l (List.mem_cons_of_mem r hl)) (by simp at hfuel ⊢; omega)
      simp only [emitLoop, hget, hev, if_true, honce, hadds, if_false]
      rw [show regAdds s [] = s from rfl, hrec]
      simp

theorem regAdds_replicate (ev : Nat) :
    ∀ (k g : Nat) (L : List RListener),
      regAdds ⟨g, L⟩ (List.replicate k (ev, false))
        = ⟨g + k, L ++ (List.range' (g + 1) k).map (fun i => ⟨i, ev, false, []⟩)⟩ := by
  intro k
  induction k with
  | zero => intro g L; simp [regAdds]
  | succ k ih =>
    intro g L
    rw [List.replicate_succ (ev, false) k]
    rw [show regAdds ⟨g, L⟩ ((ev, false) :: List.replicate k (ev, false))
        = regAdds ⟨g + 1, L ++ [(⟨g + 1, ev, false, []⟩ : RListener)]⟩
            (List.replicate k (ev, false))
        from rfl]
    rw [ih (g + 1) (L ++ [(⟨g + 1, ev, false, []⟩ : RListener)])]
    have h1 : g + 1 + k = g + (k + 1) := by omega
    have h2 : (L ++ [(⟨g + 1, ev, false, []⟩ : RListener)])
          ++ (List.range' (g + 1 + 1) k).map (fun i => (⟨i, ev, false, []⟩ : RListener))
        = L ++ (List.range' (g + 1) (k + 1)).map (fun i => (⟨i, ev, false, []⟩ : RListener)) := by
      rw [List.range'_succ (g + 1) k 1, List.append_assoc]
      rfl
    rw [h1, h2]

/-- C9 (amended): with the live iteration of the C++ loop (the end iterator
is recomputed each step), a listener registered on the same registry for
the same event by a callback running inside the pass IS invoked within that
same pass: starting from a single matching listener (id 1) whose callback
registers `k` matching listeners (which get ids 2 .. k+1), one emit runs to
completion and invokes all of 1 .. k+1 in that single pass. -/
theorem claim_C9 (k ev : Nat) :
    (REmitter.emit ⟨1, [⟨1, ev, false, List.replicate k (ev, false)⟩]⟩ ev (k + 3)).2
      = (List.range' 1 (k + 1), true) := by
  unfold REmitter.emit
  have h1 : emitLoop ev (k + 3) ⟨1, [⟨1, ev, false, List.replicate k (ev, false)⟩]⟩ 0 []
      = emitLoop ev (k + 2)
          (regAdds ⟨1, [⟨1, ev, false, List.replicate k (ev, false)⟩]⟩
            (List.replicate k (ev, false))) 1 [1] := by
    rw [show k + 3 = (k + 2) + 1 from rfl]
    simp [emitLoop]
  rw [h1, regAdds_replicate ev k 1 [⟨1, ev, false, List.replicate k (ev, false)⟩]]
  have htail := emitLoop_tail ev
    ((List.range' (1 + 1) k).map (fun i => (⟨i, ev, false, []⟩ : RListener)))
    ⟨1 + k, [(⟨1, ev, false, List.replicate k (ev, false)⟩ : RListener)]
      ++ (List.range' (1 + 1) k).map (fun i => (⟨i, ev, false, []⟩ : RListener))⟩
    1 [1] (k + 2)
    (by simp)
    (by intro l hl; obtain ⟨i, _, rfl⟩ := List.mem_map.mp hl; exact ⟨rfl, rfl, rfl⟩)
    (by simp)
  rw [htail, List.map_map,
    show (RListener.id ∘ fun i => (⟨i, ev, false, []⟩ : RListener)) = id from rfl,
    List.map_id, List.range'_succ 1 k 1]
  rfl

/-! ## The Publisher/Subscriber registry (pubsub.h)

A world of live `Publisher<S>` and `Subscriber<S,P>` objects, keyed by their
addresses: each publisher owns its `m_subscribers` vector (subscriber
addresses, in insertion order), each subscriber owns its single
`m_publisher` back-pointer (`none` = nullptr).  Association lists model the
sets of live objects; operations on dead or unknown addresses are no-ops
(in C++ they would not be expressible on live objects). -/

def lookupA {α : Type} : List (Nat × α) → Nat → Option α
  | [], _ => none
  | (k, v) :: rest, key => if k = key then some v else lookupA rest key

def updateA {α : Type} : List (Nat × α) → Nat → α → List (Nat × α)
  | [], _, _ => []
  | (k, v) :: rest, key, nv =>
    if k = key then (k, nv) :: rest else (k, v) :: updateA rest key nv

def removeA {α : Type} : List (Nat × α) → Nat → List (Nat × α)
  | [], _ => []
  | (k, v) :: rest, key => if k = key then rest else (k, v) :: removeA rest key


theorem lookupA_cons {α : Type} (a : Nat) (v : α) (rest : List (Nat × α)) (k : Nat) :
    lookupA ((a, v) :: rest) k = if a = k then some v else lookupA rest k := rfl

theorem updateA_cons {α : Type} (a : Nat) (v : α) (rest : List (Nat × α)) (k : Nat) (nv : α) :
    updateA ((a, v) :: rest) k nv
      = if a = k then (a, nv) :: rest else (a, v) :: updateA rest k nv := rfl

theorem removeA_cons {α : Type} (a : Nat) (v : α) (rest : List (Nat × α)) (k : Nat) :
    removeA ((a, v) :: rest) k = if a = k then rest else (a, v) :: removeA rest k := rfl

theorem lookupA_eq_none {α : Type} (m : List (Nat × α)) (k : Nat) :
    lookupA m k = none ↔ k ∉ m.map Prod.fst := by
  induction m with
  | nil => simp [lookupA]
  | cons e rest ih =>
    obtain ⟨a, v⟩ := e
    by_cases h : a = k
    · subst h
      simp [lookupA_cons]
    · rw [lookupA_cons, if_neg h, ih]
      simp only [List.map_cons, List.mem_cons, not_or]
      constructor
      · intro hn
        exact ⟨fun heq => h heq.symm, hn⟩
      · intro hn
        exact hn.2

theorem keys_updateA {α : Type} (m : List (Nat × α)) (k : Nat) (v : α) :
    (updateA m k v).map Prod.fst = m.map Prod.fst := by
  induction m with
  | nil => rfl
  | cons e rest ih =>
    obtain ⟨a, w⟩ := e
    rw [updateA_cons]
    by_cases h : a = k
    · rw [if_pos h]
      simp
    · rw [if_neg h]
      simp [ih]

theorem keys_removeA_sublist {α : Type} (m : List (Nat × α)) (k : Nat) :
    List.Sublist ((removeA m k).map Prod.fst) (m.map Prod.fst) := by
  induction m with
  | nil => simp [removeA]
  | cons e rest ih =>
    obtain ⟨a, w⟩ := e
    rw [removeA_cons]
    by_cases h : a = k
    · rw [if_pos h]
      simp only [List.map_cons]
      exact List.sublist_cons_self a (rest.map Prod.fst)
    · rw [if_neg h]
      simp only [List.map_cons]
      exact ih.cons₂ a

theorem lookupA_append_of_some {α : Type} (m m2 : List (Nat × α)) (k : Nat) (v : α)
    (h : lookupA m k = some v) : lookupA (m ++ m2) k = some v := by
  induction m with
  | nil => simp [lookupA] at h
  | cons e rest ih =>
    obtain ⟨a, w⟩ := e
    rw [lookupA_cons] at h
    rw [List.cons_append, lookupA_cons]
    by_cases ha : a = k
    · rw [if_pos ha] at h ⊢
      exact h
    · rw [if_neg ha] at h ⊢
      exact ih h

theorem lookupA_append_of_none {α : Type} (m m2 : List (Nat × α)) (k : Nat)
    (h : lookupA m k = none) : lookupA (m ++ m2) k = lookupA m2 k := by
  induction m with
  | nil => simp
  | cons e rest ih =>
    obtain ⟨a, w⟩ := e
    rw [lookupA_cons] at h
    rw [List.cons_append, lookupA_cons]
    by_cases ha : a = k
    · rw [if_pos ha] at h
      simp at h
    · rw [if_neg ha] at h ⊢
      exact ih h

theorem lookupA_updateA {α : Type} (m : List (Nat × α)) (k : Nat) (v : α) (q : Nat) :
    lookupA (updateA m k v) q
      = if q = k then (lookupA m k).map (fun _ => v) else lookupA m q := by
  induction m with
  | nil => by_cases h : q = k <;> simp [lookupA, updateA, h]
  | cons e rest ih =>
    obtain ⟨a, w⟩ := e
    rw [updateA_cons]
    by_cases hak : a = k
    · subst hak
      rw [if_pos rfl, lookupA_cons]
      by_cases hqa : q = a
      · subst hqa
        rw [if_pos rfl, if_pos rfl, lookupA_cons, if_pos rfl]
        rfl
      · rw [if_neg (fun h => hqa h.symm), if_neg hqa, lookupA_cons,
          if_neg (fun h => hqa h.symm)]
    · rw [if_neg hak, lookupA_cons]
      by_cases haq : a = q
      · subst haq
        rw [if_pos rfl, if_neg (fun h : a = k => hak h), lookupA_cons, if_pos rfl]
      · rw [if_neg haq, ih, lookupA_cons a w rest k, if_neg hak,
          lookupA_cons a w rest q, if_neg haq]

theorem lookupA_removeA_ne {α : Type} (m : List (Nat × α)) (k q : Nat) (h : q ≠ k) :
    lookupA (removeA m k) q = lookupA m q := by
  induction m with
  | nil => rfl
  | cons e rest ih =>
    obtain ⟨a, w⟩ := e
    rw [removeA_cons]
    by_cases ha : a = k
    · subst ha
      rw [if_pos rfl, lookupA_cons, if_neg (fun heq : a = q => h (heq.symm.trans rfl))]
    · rw [if_neg ha, lookupA_cons, lookupA_cons]
      by_cases haq : a = q
      · rw [if_pos haq, if_pos haq]
      · rw [if_neg haq, if_neg haq, ih]

theorem lookupA_removeA_self {α : Type} (m : List (Nat × α)) (k : Nat)
    (h : (m.map Prod.fst).Nodup) : lookupA (removeA m k) k = none := by
  induction m with
  | nil => rfl
  | cons e rest ih =>
    obtain ⟨a, w⟩ := e
    simp only [List.map_cons, List.nodup_cons] at h
    rw [removeA_cons]
    by_cases ha : a = k
    · subst ha
      rw [if_pos rfl]
      exact (lookupA_eq_none rest a).mpr h.1
    · rw [if_neg ha, lookupA_cons, if_neg ha]
      exact ih h.2

theorem lookupA_mapSetNone (m : List (Nat × Option Nat)) (ss : List Nat) (k : Nat) :
    lookupA (m.map (fun e => (e.1, if e.1 ∈ ss then none else e.2))) k
      = (lookupA m k).map (fun v => if k ∈ ss then none else v) := by
  induction m with
  | nil => rfl
  | cons e rest ih =>
    obtain ⟨a, v⟩ := e
    rw [List.map_cons]
    by_cases ha : a = k
    · subst ha
      simp [lookupA_cons]
    · simp [lookupA_cons, ha, ih]

/-- The live `Publisher` and `Subscriber` objects: each publisher's
`m_subscribers` vector and each subscriber's `m_publisher` back-pointer. -/
structure PSWorld where
  pubs : List (Nat × List Nat)
  subs : List (Nat × Option Nat)
deriving Repr, DecidableEq

/-- One operation on the publisher/subscriber world: construction of either
side, `Publisher::addSubscriber`, `Publisher::removeSubscriber`,
`Publisher::~Publisher`, `Subscriber::~Subscriber`. -/
inductive PSOp where
  | newPublisher (p : Nat)
  | newSubscriber (s : Nat)
  | addSubscriber (p s : Nat)
  | removeSubscriber (p s : Nat)
  | destroyPublisher (p : Nat)
  | destroySubscriber (s : Nat)
deriving Repr, DecidableEq

/-- Apply one operation, following pubsub.h:

* `addSubscriber(sub)`: `find` the subscriber in the vector; when absent,
  `push_back` it and set `sub->m_publisher = this` (no detach from any
  previous publisher!).
* `removeSubscriber(sub)`: when found, erase it and set
  `sub->m_publisher = nullptr`.
* `~Publisher`: set `s->m_publisher = nullptr` for every s in the vector,
  then the publisher is gone.
* `~Subscriber`: `if (m_publisher) m_publisher->removeSubscriber(this)`,
  then the subscriber is gone.

Operations naming objects that are not alive are no-ops (they are not
expressible on live C++ objects). -/
def applyPS (w : PSWorld) : PSOp → PSWorld
  | .newPublisher p => ⟨w.pubs ++ [(p, [])], w.subs⟩
  | .newSubscriber s => ⟨w.pubs, w.subs ++ [(s, none)]⟩
  | .addSubscriber p s =>
    match lookupA w.pubs p, lookupA w.subs s with
    | some ss, some _ =>
      if s ∈ ss then w
      else ⟨updateA w.pubs p (ss ++ [s]), updateA w.subs s (some p)⟩
    | _, _ => w
  | .removeSubscriber p s =>
    match lookupA w.pubs p, lookupA w.subs s with
    | some ss, some _ =>
      if s ∈ ss then ⟨updateA w.pubs p (ss.erase s), updateA w.subs s none⟩
      else w
    | _, _ => w
  | .destroyPublisher p =>
    match lookupA w.pubs p with
    | some ss =>
      ⟨removeA w.pubs p, w.subs.map (fun e => (e.1, if e.1 ∈ ss then none else e.2))⟩
    | none => w
  | .destroySubscriber s =>
    match lookupA w.subs s with
    | some r =>
      let w2 : PSWorld :=
        match r with
        | some p =>
          match lookupA w.pubs p with
          | some ss =>
            if s ∈ ss then ⟨updateA w.pubs p (ss.erase s), updateA w.subs s none⟩
            else w
          | none => w
        | none => w
      ⟨w2.pubs, removeA w2.subs s⟩
    | none => w

/-- Run a sequence of operations on an empty world. -/
def runPS (ops : List PSOp) : PSWorld := ops.foldl applyPS ⟨[], []⟩

/-- The symmetric-membership invariant of the claim: a subscriber appears
in a publisher's set iff that subscriber's back-reference points to that
publisher. -/
def PSym (w : PSWorld) : Prop :=
  (∀ p ss, lookupA w.pubs p = some ss → ∀ s ∈ ss, lookupA w.subs s = some (some p))
  ∧ (∀ s p, lookupA w.subs s = some (some p) →
      ∃ ss, lookupA w.pubs p = some ss ∧ s ∈ ss)

/-- Strengthened induction invariant: live-object addresses are unique,
subscriber vectors hold no duplicates, and membership is symmetric. -/
def PSInv (w : PSWorld) : Prop :=
  (w.pubs.map Prod.fst).Nodup
  ∧ (w.subs.map Prod.fst).Nodup
  ∧ (∀ p ss, lookupA w.pubs p = some ss → ss.Nodup)
  ∧ PSym w

/-- The discipline under which the symmetry invariant is preserved: object
addresses are fresh on construction, and `addSubscriber(p, s)` is never
invoked while `s` is attached to a different publisher. -/
def stepOK (w : PSWorld) : PSOp → Bool
  | .newPublisher p => lookupA w.pubs p == none
  | .newSubscriber s => lookupA w.subs s == none
  | .addSubscriber p s =>
    match lookupA w.subs s with
    | some (some q) => q == p
    | _ => true
  | .removeSubscriber _ _ => true
  | .destroyPublisher _ => true
  | .destroySubscriber _ => true

/-- A run all of whose steps respect the discipline. -/
def goodRun : PSWorld → List PSOp → Bool
  | _, [] => true
  | w, op :: ops => stepOK w op && goodRun (applyPS w op) ops

theorem PSInv_newPublisher (w : PSWorld) (p : Nat) (h : PSInv w)
    (hfresh : lookupA w.pubs p = none) :
    PSInv (applyPS w (PSOp.newPublisher p)) := by
  obtain ⟨hkp, hks, hnd, hfwd, hbwd⟩ := h
  have hlook : ∀ q, lookupA (w.pubs ++ [(p, [])]) q
      = if q = p then some [] else lookupA w.pubs q := by
    intro q
    by_cases hq : q = p
    · subst hq
      rw [if_pos rfl, lookupA_append_of_none _ _ _ hfresh, lookupA_cons, if_pos rfl]
    · rw [if_neg hq]
      cases hl : lookupA w.pubs q with
      | some ss => exact lookupA_append_of_some _ _ _ _ hl
      | none =>
        rw [lookupA_append_of_none _ _ _ hl, lookupA_cons,
          if_neg (fun heq => hq heq.symm)]
        rfl
  refine ⟨?_, hks, ?_, ?_, ?_⟩
  · show ((w.pubs ++ [(p, [])]).map Prod.fst).Nodup
    rw [List.map_append]
    rw [List.nodup_append]
    refine ⟨hkp, by simp, ?_⟩
    intro a ha hb
    simp only [List.map_cons, List.map_nil, List.mem_singleton] at hb
    subst hb
    exact (lookupA_eq_none w.pubs a).mp hfresh ha
  · intro q ss hq
    rw [show (applyPS w (PSOp.newPublisher p)).pubs = w.pubs ++ [(p, [])] from rfl,
      hlook] at hq
    by_cases hqp : q = p
    · rw [if_pos hqp] at hq
      cases hq
      exact List.nodup_nil
    · rw [if_neg hqp] at hq
      exact hnd q ss hq
  · intro q ss hq s hs
    rw [show (applyPS w (PSOp.newPublisher p)).pubs = w.pubs ++ [(p, [])] from rfl,
      hlook] at hq
    by_cases hqp : q = p
    · rw [if_pos hqp] at hq
      cases hq
      simp at hs
    · rw [if_neg hqp] at hq
      exact hfwd q ss hq s hs
  · intro s q hq
    obtain ⟨ss, hss, hmem⟩ := hbwd s q hq
    refine ⟨ss, ?_, hmem⟩
    rw [show (applyPS w (PSOp.newPublisher p)).pubs = w.pubs ++ [(p, [])] from rfl,
      hlook]
    by_cases hqp : q = p
    · subst hqp
      rw [hss] at hfresh
      cases hfresh
    · rw [if_neg hqp]
      exact hss

theorem PSInv_newSubscriber (w : PSWorld) (s : Nat) (h : PSInv w)
    (hfresh : lookupA w.subs s = none) :
    PSInv (applyPS w (PSOp.newSubscriber s)) := by
  obtain ⟨hkp, hks, hnd, hfwd, hbwd⟩ := h
  have hlook : ∀ q, lookupA (w.subs ++ [(s, none)]) q
      = if q = s then some none else lookupA w.subs q := by
    intro q
    by_cases hq : q = s
    · subst hq
      rw [if_pos rfl, lookupA_append_of_none _ _ _ hfresh, lookupA_cons, if_pos rfl]
    · rw [if_neg hq]
      cases hl : lookupA w.subs q with
      | some r => exact lookupA_append_of_some _ _ _ _ hl
      | none =>
        rw [lookupA_append_of_none _ _ _ hl, lookupA_cons,
          if_neg (fun heq => hq heq.symm)]
        rfl
  refine ⟨hkp, ?_, hnd, ?_, ?_⟩
  · show ((w.subs ++ [(s, none)]).map Prod.fst).Nodup
    rw [List.map_append, List.nodup_append]
    refine ⟨hks, by simp, ?_⟩
    intro a ha hb
    simp only [List.map_cons, List.map_nil, List.mem_singleton] at hb
    subst hb
    exact (lookupA_eq_none w.subs a).mp hfresh ha
  · intro q ss hq s' hs'
    rw [show (applyPS w (PSOp.newSubscriber s)).subs = w.subs ++ [(s, none)] from rfl,
      hlook]
    by_cases hss : s' = s
    · subst hss
      have := hfwd q ss hq s' hs'
      rw [this] at hfresh
      cases hfresh
    · rw [if_neg hss]
      exact hfwd q ss hq s' hs'
  · intro s' q hq
    rw [show (applyPS w (PSOp.newSubscriber s)).subs = w.subs ++ [(s, none)] from rfl,
      hlook] at hq
    by_cases hss : s' = s
    · rw [if_pos hss] at hq
      cases hq
    · rw [if_neg hss] at hq
      exact hbwd s' q hq

theorem PSInv_addSubscriber (w : PSWorld) (p s : Nat) (h : PSInv w)
    (hok : ∀ q, lookupA w.subs s = some (some q) → q = p) :
    PSInv (applyPS w (PSOp.addSubscriber p s)) := by
  obtain ⟨hkp, hks, hnd, hfwd, hbwd⟩ := h
  show PSInv (match lookupA w.pubs p, lookupA w.subs s with
    | some ss, some _ =>
      if s ∈ ss then w else ⟨updateA w.pubs p (ss ++ [s]), updateA w.subs s (some p)⟩
    | _, _ => w)
  cases hp : lookupA w.pubs p with
  | none =>
    cases hs2 : lookupA w.subs s with
    | none => exact ⟨hkp, hks, hnd, hfwd, hbwd⟩
    | some r => exact ⟨hkp, hks, hnd, hfwd, hbwd⟩
  | some ss =>
    cases hs2 : lookupA w.subs s with
    | none => exact ⟨hkp, hks, hnd, hfwd, hbwd⟩
    | some r =>
      show PSInv (if s ∈ ss then w
        else ⟨updateA w.pubs p (ss ++ [s]), updateA w.subs s (some p)⟩)
      by_cases hmem : s ∈ ss
      · rw [if_pos hmem]
        exact ⟨hkp, hks, hnd, hfwd, hbwd⟩
      · rw [if_neg hmem]
        refine ⟨?_, ?_, ?_, ?_, ?_⟩
        · show ((updateA w.pubs p (ss ++ [s])).map Prod.fst).Nodup
          rw [keys_updateA]
          exact hkp
        · show ((updateA w.subs s (some p)).map Prod.fst).Nodup
          rw [keys_updateA]
          exact hks
        · intro q ss' hq
          have hq' : lookupA (updateA w.pubs p (ss ++ [s])) q = some ss' := hq
          rw [lookupA_updateA] at hq'
          by_cases hqp : q = p
          · rw [if_pos hqp, hp] at hq'
            have hss' : ss ++ [s] = ss' := by simpa using hq'
            subst hss'
            rw [List.nodup_append]
            refine ⟨hnd p ss hp, by simp, ?_⟩
            intro a ha hb
            simp only [List.mem_singleton] at hb
            subst hb
            exact hmem ha
          · rw [if_neg hqp] at hq'
            exact hnd q ss' hq'
        · intro q ss' hq s' hs'
          have hq' : lookupA (updateA w.pubs p (ss ++ [s])) q = some ss' := hq
          rw [lookupA_updateA] at hq'
          show lookupA (updateA w.subs s (some p)) s' = some (some q)
          rw [lookupA_updateA]
          by_cases hqp : q = p
          · subst hqp
            rw [if_pos rfl, hp] at hq'
            have hss' : ss ++ [s] = ss' := by simpa using hq'
            subst hss'
            by_cases hs'is : s' = s
            · rw [if_pos hs'is, hs2]
              rfl
            · rw [if_neg hs'is]
              have hmem2 : s' ∈ ss := by
                rcases List.mem_append.mp hs' with h1 | h1
                · exact h1
                · simp only [List.mem_singleton] at h1
                  exact absurd h1 hs'is
              exact hfwd q ss hp s' hmem2
          · rw [if_neg hqp] at hq'
            by_cases hs'is : s' = s
            · subst hs'is
              have hb := hfwd q ss' hq' s' hs'
              exact absurd (hok q hb) hqp
            · rw [if_neg hs'is]
              exact hfwd q ss' hq' s' hs'
        · intro s' q hq'
          have hq2 : lookupA (updateA w.subs s (some p)) s' = some (some q) := hq'
          rw [lookupA_updateA] at hq2
          by_cases hs'is : s' = s
          · rw [if_pos hs'is, hs2] at hq2
            have hpq : p = q := by simpa using hq2
            subst hpq
            refine ⟨ss ++ [s], ?_, ?_⟩
            · show lookupA (updateA w.pubs p (ss ++ [s])) p = some (ss ++ [s])
              rw [lookupA_updateA, if_pos rfl, hp]
              rfl
            · rw [hs'is]
              simp
          · rw [if_neg hs'is] at hq2
            obtain ⟨ss'', hss'', hmem''⟩ := hbwd s' q hq2
            by_cases hqp : q = p
            · subst hqp
              rw [hp] at hss''
              have hsseq : ss = ss'' := by simpa using hss''
              subst hsseq
              refine ⟨ss ++ [s], ?_, ?_⟩
              · show lookupA (updateA w.pubs q (ss ++ [s])) q = some (ss ++ [s])
                rw [lookupA_updateA, if_pos rfl, hp]
                rfl
              · exact List.mem_append.mpr (Or.inl hmem'')
            · refine ⟨ss'', ?_, hmem''⟩
              show lookupA (updateA w.pubs p (ss ++ [s])) q = some ss''
              rw [lookupA_updateA, if_neg hqp]
              exact hss''

theorem PSInv_removeSubscriber (w : PSWorld) (p s : Nat) (h : PSInv w) :
    PSInv (applyPS w (PSOp.removeSubscriber p s)) := by
  obtain ⟨hkp, hks, hnd, hfwd, hbwd⟩ := h
  show PSInv (match lookupA w.pubs p, lookupA w.subs s with
    | some ss, some _ =>
      if s ∈ ss then ⟨updateA w.pubs p (ss.erase s), updateA w.subs s none⟩ else w
    | _, _ => w)
  cases hp : lookupA w.pubs p with
  | none =>
    cases hs2 : lookupA w.subs s with
    | none => exact ⟨hkp, hks, hnd, hfwd, hbwd⟩
    | some r => exact ⟨hkp, hks, hnd, hfwd, hbwd⟩
  | some ss =>
    cases hs2 : lookupA w.subs s with
    | none => exact ⟨hkp, hks, hnd, hfwd, hbwd⟩
    | some r =>
      show PSInv (if s ∈ ss then ⟨updateA w.pubs p (ss.erase s), updateA w.subs s none⟩
        else w)
      by_cases hmem : s ∈ ss
      · rw [if_pos hmem]
        refine ⟨?_, ?_, ?_, ?_, ?_⟩
        · show ((updateA w.pubs p (ss.erase s)).map Prod.fst).Nodup
          rw [keys_updateA]
          exact hkp
        · show ((updateA w.subs s none).map Prod.fst).Nodup
          rw [keys_updateA]
          exact hks
        · intro q ss' hq
          have hq' : lookupA (updateA w.pubs p (ss.erase s)) q = some ss' := hq
          rw [lookupA_updateA] at hq'
          by_cases hqp : q = p
          · rw [if_pos hqp, hp] at hq'
            have hss' : ss.erase s = ss' := by simpa using hq'
            subst hss'
            exact (hnd p ss hp).erase s
          · rw [if_neg hqp] at hq'
            exact hnd q ss' hq'
        · intro q ss' hq s' hs'
          have hq' : lookupA (updateA w.pubs p (ss.erase s)) q = some ss' := hq
          rw [lookupA_updateA] at hq'
          show lookupA (updateA w.subs s none) s' = some (some q)
          rw [lookupA_updateA]
          by_cases hqp : q = p
          · subst hqp
            rw [if_pos rfl, hp] at hq'
            have hss' : ss.erase s = ss' := by simpa using hq'
            subst hss'
            have hne : s' ≠ s ∧ s' ∈ ss := ((hnd q ss hp).mem_erase_iff).mp hs'
            rw [if_neg hne.1]
            exact hfwd q ss hp s' hne.2
          · rw [if_neg hqp] at hq'
            by_cases hs'is : s' = s
            · subst hs'is
              have h1 := hfwd q ss' hq' s' hs'
              have h2 := hfwd p ss hp s' hmem
              rw [h1] at h2
              have : p = q := by simpa using h2.symm
              exact absurd this.symm hqp
            · rw [if_neg hs'is]
              exact hfwd q ss' hq' s' hs'
        · intro s' q hq'
          have hq2 : lookupA (updateA w.subs s none) s' = some (some q) := hq'
          rw [lookupA_updateA] at hq2
          by_cases hs'is : s' = s
          · rw [if_pos hs'is, hs2] at hq2
            simp at hq2
          · rw [if_neg hs'is] at hq2
            obtain ⟨ss'', hss'', hmem''⟩ := hbwd s' q hq2
            by_cases hqp : q = p
            · subst hqp
              rw [hp] at hss''
              have hsseq : ss = ss'' := by simpa using hss''
              subst hsseq
              refine ⟨ss.erase s, ?_, ?_⟩
              · show lookupA (updateA w.pubs q (ss.erase s)) q = some (ss.erase s)
                rw [lookupA_updateA, if_pos rfl, hp]
                rfl
              · exact (List.mem_erase_of_ne hs'is).mpr hmem''
            · refine ⟨ss'', ?_, hmem''⟩
              show lookupA (updateA w.pubs p (ss.erase s)) q = some ss''
              rw [lookupA_updateA, if_neg hqp]
              exact hss''
      · rw [if_neg hmem]
        exact ⟨hkp, hks, hnd, hfwd, hbwd⟩

theorem PSInv_destroyPublisher (w : PSWorld) (p : Nat) (h : PSInv w) :
    PSInv (applyPS w (PSOp.destroyPublisher p)) := by
  obtain ⟨hkp, hks, hnd, hfwd, hbwd⟩ := h
  show PSInv (match lookupA w.pubs p with
    | some ss =>
      ⟨removeA w.pubs p, w.subs.map (fun e => (e.1, if e.1 ∈ ss then none else e.2))⟩
    | none => w)
  cases hp : lookupA w.pubs p with
  | none => exact ⟨hkp, hks, hnd, hfwd, hbwd⟩
  | some ss =>
    refine ⟨?_, ?_, ?_, ?_, ?_⟩
    · show ((removeA w.pubs p).map Prod.fst).Nodup
      exact hkp.sublist (keys_removeA_sublist w.pubs p)
    · show ((w.subs.map (fun e => (e.1, if e.1 ∈ ss then none else e.2))).map
        Prod.fst).Nodup
      rw [List.map_map,
        show (Prod.fst ∘ fun e : Nat × Option Nat => (e.1, if e.1 ∈ ss then none else e.2))
          = Prod.fst from by funext e; rfl]
      exact hks
    · intro q ss' hq
      have hq' : lookupA (removeA w.pubs p) q = some ss' := hq
      by_cases hqp : q = p
      · subst hqp
        rw [lookupA_removeA_self w.pubs q hkp] at hq'
        cases hq'
      · rw [lookupA_removeA_ne w.pubs p q hqp] at hq'
        exact hnd q ss' hq'
    · intro q ss' hq s' hs'
      have hq' : lookupA (removeA w.pubs p) q = some ss' := hq
      by_cases hqp : q = p
      · subst hqp
        rw [lookupA_removeA_self w.pubs q hkp] at hq'
        cases hq'
      · rw [lookupA_removeA_ne w.pubs p q hqp] at hq'
        show lookupA (w.subs.map (fun e => (e.1, if e.1 ∈ ss then none else e.2))) s'
          = some (some q)
        rw [lookupA_mapSetNone]
        have hv := hfwd q ss' hq' s' hs'
        rw [hv]
        have hnotin : s' ∉ ss := by
          intro hin
          have h2 := hfwd p ss hp s' hin
          rw [hv] at h2
          have : p = q := by simpa using h2.symm
          exact absurd this.symm hqp
        simp [hnotin]
    · intro s' q hq'
      have hq2 : lookupA (w.subs.map (fun e => (e.1, if e.1 ∈ ss then none else e.2))) s'
          = some (some q) := hq'
      rw [lookupA_mapSetNone] at hq2
      cases hv : lookupA w.subs s' with
      | none => rw [hv] at hq2; cases hq2
      | some v =>
        rw [hv] at hq2
        by_cases hin : s' ∈ ss
        · rw [show Option.map (fun v => if s' ∈ ss then none else v) (some v)
              = some (if s' ∈ ss then none else v) from rfl, if_pos hin] at hq2
          cases hq2
        · rw [show Option.map (fun v => if s' ∈ ss then none else v) (some v)
              = some (if s' ∈ ss then none else v) from rfl, if_neg hin] at hq2
          have hveq : v = some q := by simpa using hq2
          subst hveq
          obtain ⟨ss'', hss'', hmem''⟩ := hbwd s' q hv
          by_cases hqp : q = p
          · subst hqp
            rw [hp] at hss''
            have : ss = ss'' := by simpa using hss''
            subst this
            exact absurd hmem'' hin
          · refine ⟨ss'', ?_, hmem''⟩
            show lookupA (removeA w.pubs p) q = some ss''
            rw [lookupA_removeA_ne w.pubs p q hqp]
            exact hss''

theorem PSInv_destroySubscriber (w : PSWorld) (s : Nat) (h : PSInv w) :
    PSInv (applyPS w (PSOp.destroySubscriber s)) := by
  obtain ⟨hkp, hks, hnd, hfwd, hbwd⟩ := h
  show PSInv (match lookupA w.subs s with
    | some r =>
      let w2 : PSWorld :=
        match r with
        | some p =>
          match lookupA w.pubs p with
          | some ss =>
            if s ∈ ss then ⟨updateA w.pubs p (ss.erase s), updateA w.subs s none⟩
            else w
          | none => w
        | none => w
      ⟨w2.pubs, removeA w2.subs s⟩
    | none => w)
  cases hs2 : lookupA w.subs s with
  | none => exact ⟨hkp, hks, hnd, hfwd, hbwd⟩
  | some r =>
    cases r with
    | none =>
      show PSInv ⟨w.pubs, removeA w.subs s⟩
      refine ⟨hkp, ?_, hnd, ?_, ?_⟩
      · exact hks.sublist (keys_removeA_sublist w.subs s)
      · intro q ssq hq s' hs'
        show lookupA (removeA w.subs s) s' = some (some q)
        by_cases hss : s' = s
        · subst hss
          have h1 := hfwd q ssq hq s' hs'
          rw [hs2] at h1
          cases h1
        · rw [lookupA_removeA_ne w.subs s s' hss]
          exact hfwd q ssq hq s' hs'
      · intro s' q hq'
        have hq2 : lookupA (removeA w.subs s) s' = some (some q) := hq'
        by_cases hss : s' = s
        · subst hss
          rw [lookupA_removeA_self w.subs s' hks] at hq2
          cases hq2
        · rw [lookupA_removeA_ne w.subs s s' hss] at hq2
          exact hbwd s' q hq2
    | some p =>
      obtain ⟨ss0, hss0, hmem0⟩ := hbwd s p hs2
      show PSInv ⟨(match lookupA w.pubs p with
          | some ss =>
            if s ∈ ss then
              (⟨updateA w.pubs p (ss.erase s), updateA w.subs s none⟩ : PSWorld)
            else w
          | none => w).pubs,
        removeA (match lookupA w.pubs p with
          | some ss =>
            if s ∈ ss then
              (⟨updateA w.pubs p (ss.erase s), updateA w.subs s none⟩ : PSWorld)
            else w
          | none => w).subs s⟩
      cases hp : lookupA w.pubs p with
      | none =>
        rw [hp] at hss0
        cases hss0
      | some ss =>
        rw [hp] at hss0
        have hsseq : ss0 = ss := by simpa using hss0.symm
        subst hsseq
        show PSInv ⟨(if s ∈ ss0 then
            (⟨updateA w.pubs p (ss0.erase s), updateA w.subs s none⟩ : PSWorld)
            else w).pubs,
          removeA (if s ∈ ss0 then
            (⟨updateA w.pubs p (ss0.erase s), updateA w.subs s none⟩ : PSWorld)
            else w).subs s⟩
        rw [if_pos hmem0]
        show PSInv ⟨updateA w.pubs p (ss0.erase s), removeA (updateA w.subs s none) s⟩
        have hknew : ((updateA w.subs s none).map Prod.fst).Nodup := by
          rw [keys_updateA]
          exact hks
        refine ⟨?_, ?_, ?_, ?_, ?_⟩
        · show ((updateA w.pubs p (ss0.erase s)).map Prod.fst).Nodup
          rw [keys_updateA]
          exact hkp
        · show ((removeA (updateA w.subs s none) s).map Prod.fst).Nodup
          exact hknew.sublist (keys_removeA_sublist _ s)
        · intro q ss' hq
          have hq' : lookupA (updateA w.pubs p (ss0.erase s)) q = some ss' := hq
          rw [lookupA_updateA] at hq'
          by_cases hqp : q = p
          · rw [if_pos hqp, hp] at hq'
            have hss' : ss0.erase s = ss' := by simpa using hq'
            subst hss'
            exact (hnd p ss0 hp).erase s
          · rw [if_neg hqp] at hq'
            exact hnd q ss' hq'
        · intro q ss' hq s' hs'
          have hq' : lookupA (updateA w.pubs p (ss0.erase s)) q = some ss' := hq
          rw [lookupA_updateA] at hq'
          show lookupA (removeA (updateA w.subs s none) s) s' = some (some q)
          by_cases hqp : q = p
          · subst hqp
            rw [if_pos rfl, hp] at hq'
            have hss' : ss0.erase s = ss' := by simpa using hq'
            subst hss'
            have hne : s' ≠ s ∧ s' ∈ ss0 := ((hnd q ss0 hp).mem_erase_iff).mp hs'
            rw [lookupA_removeA_ne _ s s' hne.1, lookupA_updateA, if_neg hne.1]
            exact hfwd q ss0 hp s' hne.2
          · rw [if_neg hqp] at hq'
            by_cases hs'is : s' = s
            · subst hs'is
              have h1 := hfwd q ss' hq' s' hs'
              rw [hs2] at h1
              have h2 : q = p := by simpa using h1.symm
              exact absurd h2 hqp
            · rw [lookupA_removeA_ne _ s s' hs'is, lookupA_updateA, if_neg hs'is]
              exact hfwd q ss' hq' s' hs'
        · intro s' q hq'
          have hq2 : lookupA (removeA (updateA w.subs s none) s) s' = some (some q) := hq'
          by_cases hs'is : s' = s
          · subst hs'is
            rw [lookupA_removeA_self _ s' hknew] at hq2
            cases hq2
          · rw [lookupA_removeA_ne _ s s' hs'is, lookupA_updateA, if_neg hs'is] at hq2
            obtain ⟨ss'', hss'', hmem''⟩ := hbwd s' q hq2
            by_cases hqp : q = p
            · subst hqp
              rw [hp] at hss''
              have hsseq2 : ss0 = ss'' := by simpa using hss''
              subst hsseq2
              refine ⟨ss0.erase s, ?_, ?_⟩
              · show lookupA (updateA w.pubs q (ss0.erase s)) q = some (ss0.erase s)
                rw [lookupA_updateA, if_pos rfl, hp]
                rfl
              · exact (List.mem_erase_of_ne hs'is).mpr hmem''
            · refine ⟨ss'', ?_, hmem''⟩
              show lookupA (updateA w.pubs p (ss0.erase s)) q = some ss''
              rw [lookupA_updateA, if_neg hqp]
              exact hss''

theorem PSInv_step (w : PSWorld) (op : PSOp) (h : PSInv w) (hok : stepOK w op = true) :
    PSInv (applyPS w op) := by
  cases op with
  | newPublisher p =>
    apply PSInv_newPublisher w p h
    simpa [stepOK] using hok
  | newSubscriber s =>
    apply PSInv_newSubscriber w s h
    simpa [stepOK] using hok
  | addSubscriber p s =>
    apply PSInv_addSubscriber w p s h
    intro q hq
    have hok' : (match lookupA w.subs s with
        | some (some q') => q' == p
        | _ => true) = true := hok
    rw [hq] at hok'
    simpa using hok'
  | removeSubscriber p s => exact PSInv_removeSubscriber w p s h
  | destroyPublisher p => exact PSInv_destroyPublisher w p h
  | destroySubscriber s => exact PSInv_destroySubscriber w s h

theorem PSInv_empty : PSInv ⟨[], []⟩ := by
  refine ⟨by simp, by simp, ?_, ?_, ?_⟩
  · intro p ss h
    cases h
  · intro p ss h
    cases h
  · intro s p h
    cases h

theorem PSInv_runPS : ∀ (ops : List PSOp) (w : PSWorld), PSInv w →
    goodRun w ops = true → PSInv (ops.foldl applyPS w) := by
  intro ops
  induction ops with
  | nil => intro w h _; exact h
  | cons op rest ih =>
    intro w h hg
    have hg' : stepOK w op = true ∧ goodRun (applyPS w op) rest = true := by
      simpa [goodRun, Bool.and_eq_true] using hg
    exact ih (applyPS w op) (PSInv_step w op h hg'.1) hg'.2

/-- C4 counterexample: the run "publisher 1, publisher 2, subscriber 10,
addSubscriber(1, 10), addSubscriber(2, 10)" — a perfectly legal sequence of
calls on live objects — breaks the symmetry: subscriber 10 still sits in
publisher 1's set while its back-reference points to publisher 2
(`addSubscriber` never detaches a subscriber from a previous publisher). -/
theorem claim_C4_counterexample :
    ¬ PSym (runPS [PSOp.newPublisher 1, PSOp.newPublisher 2, PSOp.newSubscriber 10,
      PSOp.addSubscriber 1 10, PSOp.addSubscriber 2 10]) := by
  intro h
  exact absurd (h.1 1 [10] (by decide) 10 (by decide)) (by decide)

/-- C4 (amended): membership is symmetric — a subscriber appears in a
publisher's set iff its back-reference points to that publisher — for every
configuration reachable by addSubscriber, removeSubscriber and destruction
of either side, provided `addSubscriber(p, s)` is never invoked while `s`
is attached to a different publisher (and object addresses are fresh on
construction); without that proviso the invariant fails (see the
counterexample). -/
theorem claim_C4 (ops : List PSOp) (hg : goodRun ⟨[], []⟩ ops = true) :
    PSym (runPS ops) :=
  (PSInv_runPS ops ⟨[], []⟩ PSInv_empty hg).2.2.2

theorem claim_C4_witness :
    goodRun ⟨[], []⟩ [PSOp.newPublisher 1, PSOp.newSubscriber 10,
      PSOp.addSubscriber 1 10, PSOp.destroySubscriber 10] = true
    ∧ PSym (runPS [PSOp.newPublisher 1, PSOp.newSubscriber 10,
      PSOp.addSubscriber 1 10, PSOp.destroySubscriber 10]) :=
  ⟨by decide, claim_C4 [PSOp.newPublisher 1, PSOp.newSubscriber 10,
    PSOp.addSubscriber 1 10, PSOp.destroySubscriber 10] (by decide)⟩
